import Mathlib

/-!
Verification of the dua-cpp disk-usage analyzer core against its specification.

The definitions below are shallow embeddings of the C++ sources
(dua_enhanced.cpp, dua_ui.cpp, dua_core.h).  Machine integers
(uintmax_t, size_t, uint64_t) are modelled as unbounded naturals: every
quantity involved (file sizes, entry counts, queue lengths, thread counts)
stays far below 2^64 in any run the spec talks about, so wrap-around is
never reachable and is not modelled.  The parallel walk is modelled by its
sequential (depth-first) linearization: all shared-state updates in the
source (inode table, child lists, parent counters) are individually
serialized by mutexes, so every parallel execution is a permutation of
this linearization at the granularity the proved statements observe.
-/

/-! ## Task pool: WorkStealingThreadPool (dua_enhanced.cpp lines 333-478, dua_core.h)

The constructor resolves the worker count as follows: a requested count of
0 means auto-detect via hardware_concurrency (itself defaulting to 4 when
unknown), and on Darwin the result is clamped with
num_threads = min(num_threads, size_t(3)).
The same number of queues and worker threads is then created.
-/

/-- Worker-count computation of the WorkStealingThreadPool constructor.
darwin is true when the code is compiled with the Apple branch active;
threads is the requested count (0 = auto); hw models
std::thread::hardware_concurrency(). Returns the number of worker
threads (and queues) the pool creates. -/
def pool_num_threads (darwin : Bool) (threads hw : Nat) : Nat :=
  let n := if threads = 0 then (if hw = 0 then 4 else hw) else threads
  if darwin then min n 3 else n

/-- The per-queue backpressure bound used by enqueue:
QUEUE_SIZE_LIMIT / actual_threads with integer division. -/
def queue_bound (cap n : Nat) : Nat := cap / n

/-- The scan loop of WorkStealingThreadPool::enqueue: starting from queue
qid, while fewer than fuel attempts were made, append the task to the
first queue whose length is below the bound, advancing cyclically.
Returns none when every attempt found a saturated queue (the caller then
runs the task inline). -/
def enqueue_loop {α : Type} (bound : Nat) (t : α) :
    List (List α) → Nat → Nat → Option (List (List α))
  | _, _, 0 => none
  | queues, qid, fuel + 1 =>
      if (queues.getD qid []).length < bound then
        some (queues.set qid ((queues.getD qid []) ++ [t]))
      else
        enqueue_loop bound t queues ((qid + 1) % queues.length) fuel

/-- WorkStealingThreadPool::enqueue.  cap is QUEUE_SIZE_LIMIT, start is
the value drawn from the round-robin counter next_queue; the loop makes
at most actual_threads attempts.  some qs means the task was appended
producing queue state qs; none means every queue was saturated and the
caller executes the task inline. -/
def enqueue {α : Type} (cap : Nat) (queues : List (List α)) (start : Nat) (t : α) :
    Option (List (List α)) :=
  enqueue_loop (queue_bound cap queues.length) t queues (start % queues.length) queues.length

theorem enqueue_loop_none {α : Type} (bound : Nat) (t : α) (queues : List (List α))
    (hall : ∀ q ∈ queues, bound ≤ q.length) :
    ∀ fuel qid, qid < queues.length → enqueue_loop bound t queues qid fuel = none := by
  intro fuel
  induction fuel with
  | zero => intro qid _; rfl
  | succ n ih =>
      intro qid hq
      have hmem : queues.getD qid [] ∈ queues := by
        rw [List.getD_eq_getElem?_getD, List.getElem?_eq_getElem hq]
        exact List.getElem_mem hq
      have hlen : ¬ (queues.getD qid []).length < bound := by
        have := hall _ hmem
        omega
      have hpos : 0 < queues.length := by omega
      simp only [enqueue_loop, if_neg hlen]
      exact ih _ (Nat.mod_lt _ hpos)

theorem enqueue_loop_succ_pos {α : Type} (bound : Nat) (t : α) (queues : List (List α))
    (qid fuel : Nat) (h : (queues.getD qid []).length < bound) :
    enqueue_loop bound t queues qid (fuel + 1) =
      some (queues.set qid ((queues.getD qid []) ++ [t])) := by
  simp only [enqueue_loop]
  rw [if_pos h]

theorem enqueue_loop_bounded {α : Type} (bound : Nat) (t : α) :
    ∀ (fuel : Nat) (queues : List (List α)) (qid : Nat) (qs : List (List α)),
      (∀ q ∈ queues, q.length ≤ bound) →
      enqueue_loop bound t queues qid fuel = some qs →
      ∀ q ∈ qs, q.length ≤ bound := by
  intro fuel
  induction fuel with
  | zero => intro queues qid qs _ h; simp [enqueue_loop] at h
  | succ n ih =>
      intro queues qid qs hall h
      by_cases hlt : (queues.getD qid []).length < bound
      · simp only [enqueue_loop, if_pos hlt, Option.some.injEq] at h
        subst h
        intro q hq
        rcases List.mem_or_eq_of_mem_set hq with hmem | heq
        · exact hall _ hmem
        · subst heq
          simp only [List.length_append, List.length_cons, List.length_nil]
          omega
      · simp only [enqueue_loop, if_neg hlt] at h
        exact ih queues _ qs hall h

/-- C7: WorkStealingThreadPool::enqueue obeys producer-side backpressure:
(a) if the queue chosen by the round-robin counter is below
QUEUE_SIZE_LIMIT / workers, the task is appended there; (b) if every
queue is at or above that bound, the submitter executes the task inline
(result none); (c) submission never grows any queue beyond the per-queue
bound: when all queues respect the bound before the call, they all
respect it after; (d) when the chosen queue is saturated but the next
one in cyclic order has room, the task is appended to that next
queue. -/
theorem enqueue_backpressure {α : Type} (cap : Nat) (queues : List (List α))
    (start : Nat) (t : α) (hn : 0 < queues.length) :
    ((queues.getD (start % queues.length) []).length < queue_bound cap queues.length →
      enqueue cap queues start t =
        some (queues.set (start % queues.length)
          ((queues.getD (start % queues.length) []) ++ [t]))) ∧
    ((∀ q ∈ queues, queue_bound cap queues.length ≤ q.length) →
      enqueue cap queues start t = none) ∧
    ((∀ q ∈ queues, q.length ≤ queue_bound cap queues.length) →
      ∀ qs, enqueue cap queues start t = some qs →
        ∀ q ∈ qs, q.length ≤ queue_bound cap queues.length) ∧
    (queue_bound cap queues.length ≤
        (queues.getD (start % queues.length) []).length →
      (queues.getD ((start % queues.length + 1) % queues.length) []).length <
        queue_bound cap queues.length →
      enqueue cap queues start t =
        some (queues.set ((start % queues.length + 1) % queues.length)
          ((queues.getD ((start % queues.length + 1) % queues.length) []) ++ [t]))) := by
  refine ⟨?_, ?_, ?_, ?_⟩
  · intro hlt
    unfold enqueue
    obtain ⟨m, hm⟩ : ∃ m, queues.length = m + 1 :=
      ⟨queues.length - 1, by omega⟩
    rw [hm] at hlt ⊢
    exact enqueue_loop_succ_pos _ t queues _ m hlt
  · intro hall
    exact enqueue_loop_none _ t queues hall _ _ (Nat.mod_lt _ hn)
  · intro hall qs h
    exact enqueue_loop_bounded _ t queues.length queues _ qs hall h
  · intro hfull hnext
    unfold enqueue
    rcases Nat.lt_or_ge queues.length 2 with hn2 | hn2
    · exfalso
      have h1 : queues.length = 1 := by omega
      rw [h1] at hfull hnext
      simp only [Nat.mod_one] at hfull hnext
      omega
    · obtain ⟨m, hm⟩ : ∃ m, queues.length = m + 2 :=
        ⟨queues.length - 2, by omega⟩
      rw [hm] at hfull hnext ⊢
      have hnot : ¬ (queues.getD (start % (m + 2)) []).length <
          queue_bound cap (m + 2) := by omega
      simp only [enqueue_loop, if_neg hnot]
      rw [hm, if_pos hnext]

/-- Witness for C7 at a concrete pool state: two queues of capacity
bound 2 (cap 4), one of them already full. -/
theorem enqueue_backpressure_witness :
    (0 < ([[0, 1], [0]] : List (List Nat)).length) ∧
    enqueue 4 ([[0, 1], [0]] : List (List Nat)) 1 7 = some [[0, 1], [0, 7]] := by
  refine ⟨by decide, ?_⟩
  have h := (enqueue_backpressure 4 ([[0, 1], [0]] : List (List Nat)) 1 7 (by decide)).1
  exact h (by decide)

/-- C8 counterexample: on Darwin an explicitly configured thread count of
5 does not produce 5 workers; the constructor clamps it to 3 via
num_threads = min(num_threads, 3), which is applied after the
auto-detect branch and regardless of whether the count was overridden. -/
theorem pool_num_threads_darwin_counterexample :
    pool_num_threads true 5 8 = 3 ∧ pool_num_threads true 5 8 ≠ 5 := by
  decide

/-- C8 amended: on Darwin the pool creates min(configured, 3) workers for
any explicitly configured (nonzero) thread count; the configured number
is honored exactly only when it is at most 3. -/
theorem pool_num_threads_darwin (threads hw : Nat) (h : threads ≠ 0) :
    pool_num_threads true threads hw = min threads 3 := by
  unfold pool_num_threads
  simp [if_neg h]

/-- Witness for the amended C8 at threads = 2: an explicit count within
the ceiling is honored exactly. -/
theorem pool_num_threads_darwin_witness :
    (2 ≠ 0) ∧ pool_num_threads true 2 8 = min 2 3 :=
  ⟨by decide, pool_num_threads_darwin 2 8 (by decide)⟩

/-! ## Glob matching (dua_enhanced.cpp lines 291-328, glob_match)

glob_match converts the pattern to a regex: * becomes .*, ? becomes .,
the metacharacters . ( ) [ ] { } + ^ $ | \ are escaped, every other
character is copied verbatim.  The compiled regex is therefore a plain
sequence of three kinds of atoms, modelled by GTok below.  It is then run
with std::regex_search under std::regex_constants::icase: the match may
start at any position of the text and need not extend to its end, and
literal characters compare case-insensitively (modelled with
Char.toLower).  tokMatch is the anchored-at-start matchability of such an
atom sequence; searchMatch tries every start position, which is exactly
the observable boolean of regex_search on this fragment. -/

inductive GTok where
  | star : GTok
  | any : GTok
  | lit : Char → GTok
  deriving Repr, DecidableEq

/-- Translation of one pattern character inside the loop of glob_match:
* and ? become the regex atoms .* and . ; every other character, whether
escaped by the switch or copied verbatim, denotes itself literally. -/
def globTok (c : Char) : GTok :=
  if c = '*' then .star else if c = '?' then .any else .lit c

def compileGlob (pattern : String) : List GTok := pattern.data.map globTok

/-- Matchability of the compiled atom sequence against a prefix of the
text (the match may stop before the end of the text, as regex_search
allows). -/
def tokMatch : List GTok → List Char → Bool
  | [], _ => true
  | .star :: ts, [] => tokMatch ts []
  | .star :: ts, c :: s2 => tokMatch ts (c :: s2) || tokMatch (.star :: ts) s2
  | .any :: _, [] => false
  | .any :: ts, _ :: s2 => tokMatch ts s2
  | .lit _ :: _, [] => false
  | .lit a :: ts, c :: s2 => (a.toLower == c.toLower) && tokMatch ts s2
termination_by ts s => (ts.length, s.length)

/-- Unanchored search: try the anchored match at every start position of
the text, exactly as std::regex_search does. -/
def searchMatch (ts : List GTok) : List Char → Bool
  | [] => tokMatch ts []
  | c :: s2 => tokMatch ts (c :: s2) || searchMatch ts s2

/-- glob_match of dua_enhanced.cpp: compile the glob pattern and run the
case-insensitive unanchored search over the text. -/
def glob_match (pattern text : String) : Bool :=
  searchMatch (compileGlob pattern) text.data

/-- Case-insensitive prefix test between character lists. -/
def charsStartWith : List Char → List Char → Bool
  | [], _ => true
  | _ :: _, [] => false
  | c :: p2, d :: s2 => (c.toLower == d.toLower) && charsStartWith p2 s2

/-- Case-insensitive substring test: does the first list occur
contiguously inside the second? -/
def charsContainsCI : List Char → List Char → Bool
  | p, [] => charsStartWith p []
  | p, c :: t2 => charsStartWith p (c :: t2) || charsContainsCI p t2

theorem map_globTok_plain : ∀ (l : List Char), (∀ c ∈ l, c ≠ '*' ∧ c ≠ '?') →
    l.map globTok = l.map GTok.lit := by
  intro l h
  induction l with
  | nil => rfl
  | cons c rest ih =>
      have hc := h c (List.mem_cons_self c rest)
      simp only [List.map_cons, List.cons.injEq]
      refine ⟨?_, ih (fun d hd => h d (List.mem_cons_of_mem c hd))⟩
      unfold globTok
      rw [if_neg hc.1, if_neg hc.2]

theorem compileGlob_plain (pattern : String)
    (h : ∀ c ∈ pattern.data, c ≠ '*' ∧ c ≠ '?') :
    compileGlob pattern = pattern.data.map GTok.lit :=
  map_globTok_plain pattern.data h

theorem tokMatch_lits : ∀ (p s : List Char),
    tokMatch (p.map GTok.lit) s = charsStartWith p s := by
  intro p
  induction p with
  | nil => intro s; cases s <;> simp [tokMatch, charsStartWith]
  | cons c p2 ih =>
      intro s
      cases s with
      | nil => simp [tokMatch, charsStartWith]
      | cons d s2 => simp [tokMatch, charsStartWith, ih]

theorem searchMatch_of_contains (p : List Char) :
    ∀ t : List Char, charsContainsCI p t = true →
      searchMatch (p.map GTok.lit) t = true := by
  intro t
  induction t with
  | nil =>
      intro h
      simpa [searchMatch, charsContainsCI, tokMatch_lits] using h
  | cons c t2 ih =>
      intro h
      simp only [charsContainsCI, Bool.or_eq_true] at h
      simp only [searchMatch, Bool.or_eq_true, tokMatch_lits]
      rcases h with h | h
      · exact Or.inl h
      · exact Or.inr (ih h)

/-- C10: glob matching is an unanchored, case-insensitive substring
search.  For every pattern containing no * and no ?, every name that
contains the pattern as a case-insensitive substring matches — not only
names equal to the pattern. -/
theorem glob_match_substring (pattern text : String)
    (hplain : ∀ c ∈ pattern.data, c ≠ '*' ∧ c ≠ '?')
    (hsub : charsContainsCI pattern.data text.data = true) :
    glob_match pattern text = true := by
  unfold glob_match
  rw [compileGlob_plain pattern hplain]
  exact searchMatch_of_contains _ _ hsub

def witness_pattern : String := "ink"

def witness_name : String := "Linker.txt"

/-- Witness for C10: the plain pattern ink matches the name Linker.txt,
which contains it only as a case-insensitive proper substring. -/
theorem glob_match_substring_witness :
    glob_match witness_pattern witness_name = true ∧ witness_name ≠ witness_pattern :=
  ⟨glob_match_substring witness_pattern witness_name (by decide) (by decide),
   by decide⟩

/-! ## Entry tree (struct Entry, dua_enhanced.cpp lines 155-207)

An Entry is a node of the scanned forest.  The C++ struct carries the
path, kind flags, atomic counters (size, apparent_size, entry_count), the
stat identity (device_id, inode, hard_link_count), the mark bit and a
mutex-guarded child vector; the mutex and atomics disappear in the
sequential model.  The constructor initializes size, apparent_size and
entry_count to 0, marked to false, and fills device_id / inode /
hard_link_count from stat only for non-symlinks (symlinks keep the field
initializers 0, 0, 1). -/

structure EMeta where
  path : String
  isDirectory : Bool
  isSymlink : Bool
  size : Nat
  apparentSize : Nat
  entryCount : Nat
  deviceId : Nat
  inode : Nat
  linkCount : Nat
  marked : Bool
  deriving Repr, DecidableEq

inductive Entry where
  | node (m : EMeta) (children : List Entry)
  deriving Repr

def Entry.meta : Entry → EMeta
  | .node m _ => m

def Entry.children : Entry → List Entry
  | .node _ cs => cs

instance : Inhabited Entry :=
  ⟨.node ⟨"", false, false, 0, 0, 0, 0, 0, 1, false⟩ []⟩

/-! Structural induction over an Entry and all its descendants. -/
mutual
theorem entryInd (P : Entry → Prop) (Q : List Entry → Prop)
    (hnil : Q []) (hcons : ∀ e l, P e → Q l → Q (e :: l))
    (hnode : ∀ m cs, Q cs → P (.node m cs)) : ∀ e, P e
  | .node m cs => hnode m cs (entryIndList P Q hnil hcons hnode cs)

theorem entryIndList (P : Entry → Prop) (Q : List Entry → Prop)
    (hnil : Q []) (hcons : ∀ e l, P e → Q l → Q (e :: l))
    (hnode : ∀ m cs, Q cs → P (.node m cs)) : ∀ l, Q l
  | [] => hnil
  | e :: rest => hcons e rest (entryInd P Q hnil hcons hnode e)
      (entryIndList P Q hnil hcons hnode rest)
end

/-! entry_all: does a Boolean predicate hold at every node of the tree? -/
mutual
def entry_all (p : Entry → Bool) : Entry → Bool
  | .node m cs => p (.node m cs) && entry_all_list p cs

def entry_all_list (p : Entry → Bool) : List Entry → Bool
  | [] => true
  | e :: rest => entry_all p e && entry_all_list p rest
end

theorem entry_all_list_eq_all (p : Entry → Bool) :
    ∀ l : List Entry, entry_all_list p l = l.all (entry_all p) := by
  intro l
  induction l with
  | nil => rfl
  | cons e rest ih => simp [entry_all_list, ih]

theorem entry_all_list_of_perm (p : Entry → Bool) {l1 l2 : List Entry}
    (h : l1.Perm l2) (ha : entry_all_list p l1 = true) :
    entry_all_list p l2 = true := by
  rw [entry_all_list_eq_all, List.all_eq_true] at ha ⊢
  exact fun x hx => ha x (h.mem_iff.mpr hx)

/-- The comparator of the roll-up sort: std::sort with
a->size > b->size orders children by descending size. -/
def sizeGe (a b : Entry) : Prop := b.meta.size ≤ a.meta.size

instance : DecidableRel sizeGe := fun a b => Nat.decLe b.meta.size a.meta.size

def sortBySizeDesc (l : List Entry) : List Entry := List.insertionSort sizeGe l

/-! ## Roll-up: OptimizedScanner::calculate_sizes (dua_enhanced.cpp lines 718-743)

For a non-directory the code sets entry_count to (size > 0 ? 1 : 0) and
returns the size untouched.  For a directory it recomputes every child,
sums the recomputed sizes and entry counts into the directory's own
counters, and sorts the child list by descending size. -/

mutual
def calculate_sizes : Entry → Entry
  | .node m cs =>
      if m.isDirectory then
        let cs2 := calc_sizes_list cs
        .node { m with
                size := (cs2.map (fun c => c.meta.size)).sum,
                entryCount := (cs2.map (fun c => c.meta.entryCount)).sum }
          (sortBySizeDesc cs2)
      else
        .node { m with entryCount := if 0 < m.size then 1 else 0 } cs

def calc_sizes_list : List Entry → List Entry
  | [] => []
  | c :: rest => calculate_sizes c :: calc_sizes_list rest
end

theorem calc_sizes_list_eq_map :
    ∀ l : List Entry, calc_sizes_list l = l.map calculate_sizes := by
  intro l
  induction l with
  | nil => rfl
  | cons c rest ih => simp [calc_sizes_list, ih]

/-! ## Filesystem model and scan walk
(OptimizedScanner, dua_enhanced.cpp lines 480-793)

FSNode models the filesystem as the scanner observes it through one
directory_iterator pass: each child is a regular file, a directory, a
symlink, or something else (socket, fifo, device — skipped by the
dispatch, which tests is_symlink, then is_directory, then
is_regular_file, and otherwise ignores the item).  FMeta carries what
stat and the directory entry provide: bytes is the apparent length
(item.file_size()), diskBytes the block-rounded on-disk size that
get_size_on_disk returns (st_blocks * 512), and targetIsDir records, for
a symlink given as a scan root, whether fs::is_directory — which follows
the link — reports a directory.

The parallel walk is modelled by its depth-first linearization; the
visited-canonical-path set and the ignore list (should_ignore_directory)
are not modelled: the filesystem value is a tree, so no canonical path
recurs, and the claims under study use an empty ignore list. -/

structure FMeta where
  name : String
  dev : Nat
  ino : Nat
  nlink : Nat
  bytes : Nat
  diskBytes : Nat
  targetIsDir : Bool
  deriving Repr, DecidableEq

inductive FSNode where
  | file (m : FMeta)
  | dir (m : FMeta) (children : List FSNode)
  | symlink (m : FMeta)
  | special (m : FMeta)
  deriving Repr

def FSNode.fmeta : FSNode → FMeta
  | .file m => m
  | .dir m _ => m
  | .symlink m => m
  | .special m => m

def FSNode.isSymlinkNode : FSNode → Bool
  | .symlink _ => true
  | _ => false

/-- Scanner configuration fields consulted by the walk (struct Config). -/
structure ScanConfig where
  apparent_size : Bool
  count_hard_links : Bool
  stay_on_filesystem : Bool
  deriving Repr, DecidableEq

/-- The inode table: the set of (device_id, inode) keys already counted.
The C++ unordered_map maps each key to the constant 1, so only the key
set is observable. -/
abbrev InodeSet := List (Nat × Nat)

/-- OptimizedScanner::should_count_entry (lines 520-532): with hard-link
counting disabled and link_count > 1, consult the inode table under the
lock; a present key means the file was already counted (return false),
an absent key is inserted and the file is counted. -/
def should_count_entry (cfg : ScanConfig) (s : InodeSet)
    (dev ino nlink : Nat) : Bool × InodeSet :=
  if !cfg.count_hard_links && decide (1 < nlink) then
    if (dev, ino) ∈ s then (false, s) else (true, (dev, ino) :: s)
  else
    (true, s)

/-- Effective size of a regular file: apparent length under
config.apparent_size, block-rounded on-disk bytes otherwise. -/
def effective_size (cfg : ScanConfig) (m : FMeta) : Nat :=
  if cfg.apparent_size then m.bytes else m.diskBytes

/-- Entry built for a symlink child (lines 626-639): target recorded,
size, apparent_size and entry_count forced to 0, no recursion; stat
identity keeps the struct initializers because the Entry constructor
skips the stat branch for symlinks. -/
def symlink_child_entry (m : FMeta) : Entry :=
  .node ⟨m.name, false, true, 0, 0, 0, 0, 0, 1, false⟩ []

/-! One walk step over a directory item, and the walk over an item list.

scan_entry returns (entry to append if any, size contribution to the
parent, entry-count contribution to the parent, inode table after).
Only regular files contribute to the parent counters during the walk
(parent->size += child->size, parent->entry_count++ when counted);
directories get their own counters filled by their recursive scan, which
models the task enqueued for them.  scan_entry_list is the loop of
scan_directory_batch (lines 605-676): each non-symlink item whose
device_id differs from the root device under stay_on_filesystem is
skipped entirely (continue) before the kind dispatch. -/
mutual
def scan_entry (cfg : ScanConfig) (rootDev : Nat) :
    FSNode → InodeSet → Option Entry × Nat × Nat × InodeSet
  | .symlink m, s => (some (symlink_child_entry m), 0, 0, s)
  | .file m, s =>
      match should_count_entry cfg s m.dev m.ino m.nlink with
      | (counted, s1) =>
        let sz := if counted then effective_size cfg m else 0
        (some (.node ⟨m.name, false, false, sz, m.bytes, 0, m.dev, m.ino, m.nlink, false⟩ []),
          sz, if counted then 1 else 0, s1)
  | .dir m cs, s =>
      match scan_entry_list cfg rootDev cs s with
      | (es, sz, cnt, s1) =>
        (some (.node ⟨m.name, true, false, sz, 0, cnt, m.dev, m.ino, m.nlink, false⟩ es),
          0, 0, s1)
  | .special _, s => (none, 0, 0, s)

def scan_entry_list (cfg : ScanConfig) (rootDev : Nat) :
    List FSNode → InodeSet → List Entry × Nat × Nat × InodeSet
  | [], s => ([], 0, 0, s)
  | n :: rest, s =>
      if !n.isSymlinkNode && cfg.stay_on_filesystem && !(n.fmeta.dev == rootDev) then
        scan_entry_list cfg rootDev rest s
      else
        match scan_entry cfg rootDev n s with
        | (oe, psz, pcnt, s1) =>
          match scan_entry_list cfg rootDev rest s1 with
          | (es, psz2, pcnt2, s2) =>
            ((match oe with
              | some e => e :: es
              | none => es), psz + psz2, pcnt + pcnt2, s2)
end

/-- OptimizedScanner::scan_directory_impl (lines 679-756): a scan task
for an entry returns immediately when the entry is a symlink; otherwise
it enumerates the directory and feeds the items through
scan_directory_batch, which appends the children and accumulates the
entry's counters. -/
def scan_directory_impl (cfg : ScanConfig) (rootDev : Nat) (e : Entry)
    (items : List FSNode) (s : InodeSet) : Entry × InodeSet :=
  if e.meta.isSymlink then (e, s)
  else
    match scan_entry_list cfg rootDev items s with
    | (es, sz, cnt, s1) =>
      (.node { e.meta with
               size := e.meta.size + sz,
               entryCount := e.meta.entryCount + cnt }
        (e.children ++ es), s1)

/-- OptimizedScanner::scan for one root path (lines 758-793) followed by
the roll-up: a directory root gets an Entry and a scan task, a file root
is measured directly (no hard-link check is made for roots).  A root
that is itself a symlink has is_symlink set by the Entry constructor
(with stat identity left at the initializers), while
root->is_directory = fs::is_directory(path) follows the link: a symlink
to a directory goes through scan_directory_impl, whose symlink guard
returns immediately, and a symlink to a file is measured through the
link by fs::file_size / stat.  After the walk, calculate_sizes performs
the roll-up. -/
def scan_root (cfg : ScanConfig) : FSNode → Entry
  | .dir m cs =>
      let e0 : Entry := .node ⟨m.name, true, false, 0, 0, 0, m.dev, m.ino, m.nlink, false⟩ []
      calculate_sizes (scan_directory_impl cfg m.dev e0 cs []).1
  | .file m =>
      calculate_sizes
        (.node ⟨m.name, false, false, effective_size cfg m, m.bytes, 0,
          m.dev, m.ino, m.nlink, false⟩ [])
  | .symlink m =>
      if m.targetIsDir then
        calculate_sizes
          ((scan_directory_impl cfg 0
            (.node ⟨m.name, true, true, 0, 0, 0, 0, 0, 1, false⟩ []) [] []).1)
      else
        calculate_sizes
          (.node ⟨m.name, false, true, effective_size cfg m, m.bytes, 0,
            0, 0, 1, false⟩ [])
  | .special m =>
      calculate_sizes
        (.node ⟨m.name, false, false, effective_size cfg m, m.bytes, 0,
          m.dev, m.ino, m.nlink, false⟩ [])

theorem Entry.meta_node (m : EMeta) (cs : List Entry) :
    (Entry.node m cs).meta = m := rfl

theorem Entry.children_node (m : EMeta) (cs : List Entry) :
    (Entry.node m cs).children = cs := rfl

/-! ## Roll-up conservation (spec invariant I1, claim C1)

rollup_ok is the local conservation property of one node in the
post-roll-up tree: a directory's size is the sum of its children's
sizes and its entry count is the sum of its directory children's entry
counts plus the number of counted files directly under it (the files
that contribute a nonzero size after dedup); a leaf carries the
indicator entry count the roll-up assigns it. -/

def rollup_ok (e : Entry) : Bool :=
  if e.meta.isDirectory then
    (e.meta.size == (e.children.map (fun c => c.meta.size)).sum) &&
    (e.meta.entryCount ==
      ((e.children.filter (fun c => c.meta.isDirectory)).map
        (fun c => c.meta.entryCount)).sum +
      (e.children.filter
        (fun c => !c.meta.isDirectory && decide (0 < c.meta.size))).length)
  else
    e.meta.entryCount == (if 0 < e.meta.size then 1 else 0)

/-- Well-formedness the walk guarantees: only directories carry
children (the roll-up does not descend through non-directories, so this
is needed for conservation to propagate). -/
def leaf_no_children (e : Entry) : Bool :=
  e.meta.isDirectory || e.children.isEmpty

theorem calculate_sizes_nonDir (m : EMeta) (cs : List Entry)
    (h : m.isDirectory = false) :
    calculate_sizes (.node m cs) =
      .node { m with entryCount := if 0 < m.size then 1 else 0 } cs := by
  simp [calculate_sizes, h]

theorem calculate_sizes_dir (m : EMeta) (cs : List Entry)
    (h : m.isDirectory = true) :
    calculate_sizes (.node m cs) =
      .node { m with
              size := ((calc_sizes_list cs).map (fun c => c.meta.size)).sum,
              entryCount :=
                ((calc_sizes_list cs).map (fun c => c.meta.entryCount)).sum }
        (sortBySizeDesc (calc_sizes_list cs)) := by
  simp [calculate_sizes, h]

theorem calc_meta_isDir (e : Entry) :
    (calculate_sizes e).meta.isDirectory = e.meta.isDirectory := by
  cases e with
  | node m cs =>
      by_cases h : m.isDirectory = true
      · rw [calculate_sizes_dir m cs h, Entry.meta_node, Entry.meta_node]
      · rw [calculate_sizes_nonDir m cs (by simpa using h), Entry.meta_node,
          Entry.meta_node]

theorem calc_nonDir_count (e : Entry)
    (h : (calculate_sizes e).meta.isDirectory = false) :
    (calculate_sizes e).meta.entryCount =
      if 0 < (calculate_sizes e).meta.size then 1 else 0 := by
  cases e with
  | node m cs =>
      rw [calc_meta_isDir, Entry.meta_node] at h
      rw [calculate_sizes_nonDir m cs h, Entry.meta_node]

theorem count_sum_split : ∀ l : List Entry,
    (∀ c ∈ l, c.meta.isDirectory = false →
      c.meta.entryCount = if 0 < c.meta.size then 1 else 0) →
    (l.map (fun c => c.meta.entryCount)).sum =
      ((l.filter (fun c => c.meta.isDirectory)).map
        (fun c => c.meta.entryCount)).sum +
      (l.filter (fun c => !c.meta.isDirectory && decide (0 < c.meta.size))).length := by
  intro l
  induction l with
  | nil => intro _; rfl
  | cons c rest ih =>
      intro h
      have hrest := ih (fun d hd => h d (List.mem_cons_of_mem c hd))
      simp only [List.map_cons, List.sum_cons, List.filter_cons]
      by_cases hd : c.meta.isDirectory = true
      · simp only [hd, if_true, Bool.not_true, Bool.false_and,
          Bool.false_eq_true, if_false, List.map_cons, List.sum_cons]
        omega
      · have hb : c.meta.isDirectory = false := by simpa using hd
        have hc := h c (List.mem_cons_self c rest) hb
        by_cases hsz : 0 < c.meta.size
        · simp only [hb, Bool.false_eq_true, if_false, Bool.not_false,
            Bool.true_and, decide_eq_true hsz, if_true, List.length_cons]
          rw [hc, if_pos hsz]
          omega
        · have hdec : decide (0 < c.meta.size) = false := by simpa using hsz
          simp only [hb, Bool.false_eq_true, if_false, Bool.not_false,
            Bool.true_and, hdec]
          rw [hc, if_neg hsz]
          omega

theorem rollup_conserves :
    ∀ e, entry_all leaf_no_children e = true →
      entry_all rollup_ok (calculate_sizes e) = true := by
  apply entryInd
    (fun e => entry_all leaf_no_children e = true →
      entry_all rollup_ok (calculate_sizes e) = true)
    (fun l => entry_all_list leaf_no_children l = true →
      entry_all_list rollup_ok (calc_sizes_list l) = true)
  · intro _; rfl
  · intro e l he hl hel
    simp only [entry_all_list, Bool.and_eq_true] at hel
    simp only [calc_sizes_list, entry_all_list, Bool.and_eq_true]
    exact ⟨he hel.1, hl hel.2⟩
  · intro m cs hQ hwf
    simp only [entry_all, Bool.and_eq_true] at hwf
    by_cases hd : m.isDirectory = true
    · rw [calculate_sizes_dir m cs hd]
      have hperm : (sortBySizeDesc (calc_sizes_list cs)).Perm (calc_sizes_list cs) :=
        List.perm_insertionSort sizeGe (calc_sizes_list cs)
      have hchildren : entry_all_list rollup_ok (sortBySizeDesc (calc_sizes_list cs)) = true :=
        entry_all_list_of_perm rollup_ok hperm.symm (hQ hwf.2)
      simp only [entry_all, Bool.and_eq_true]
      refine ⟨?_, hchildren⟩
      have hind : ∀ c ∈ calc_sizes_list cs, c.meta.isDirectory = false →
          c.meta.entryCount = if 0 < c.meta.size then 1 else 0 := by
        intro c hc hcd
        rw [calc_sizes_list_eq_map] at hc
        obtain ⟨c0, _, rfl⟩ := List.mem_map.mp hc
        exact calc_nonDir_count c0 hcd
      unfold rollup_ok
      rw [Entry.meta_node, Entry.children_node]
      simp only [hd, if_true, Bool.and_eq_true, beq_iff_eq]
      constructor
      · exact ((hperm.map (fun c => c.meta.size)).sum_eq).symm
      · rw [count_sum_split (calc_sizes_list cs) hind]
        have h1 := (hperm.filter (fun c => c.meta.isDirectory)).map
          (fun c => c.meta.entryCount)
        have h2 := hperm.filter
          (fun c => !c.meta.isDirectory && decide (0 < c.meta.size))
        rw [h1.sum_eq, h2.length_eq]
    · have hb : m.isDirectory = false := by simpa using hd
      rw [calculate_sizes_nonDir m cs hb]
      have hcs : cs = [] := by
        have hw := hwf.1
        unfold leaf_no_children at hw
        rw [Entry.meta_node, Entry.children_node, hb] at hw
        simp only [Bool.false_or] at hw
        exact List.isEmpty_iff.mp hw
      subst hcs
      simp only [entry_all, entry_all_list, Bool.and_true]
      unfold rollup_ok
      rw [Entry.meta_node]
      simp [hb]

/-! Structural induction over an FSNode / item list. -/
mutual
theorem fsInd (P : FSNode → Prop) (Q : List FSNode → Prop)
    (hnil : Q []) (hcons : ∀ n l, P n → Q l → Q (n :: l))
    (hfile : ∀ m, P (.file m)) (hsym : ∀ m, P (.symlink m))
    (hspec : ∀ m, P (.special m))
    (hdir : ∀ m cs, Q cs → P (.dir m cs)) : ∀ n, P n
  | .file m => hfile m
  | .symlink m => hsym m
  | .special m => hspec m
  | .dir m cs => hdir m cs (fsIndList P Q hnil hcons hfile hsym hspec hdir cs)

theorem fsIndList (P : FSNode → Prop) (Q : List FSNode → Prop)
    (hnil : Q []) (hcons : ∀ n l, P n → Q l → Q (n :: l))
    (hfile : ∀ m, P (.file m)) (hsym : ∀ m, P (.symlink m))
    (hspec : ∀ m, P (.special m))
    (hdir : ∀ m cs, Q cs → P (.dir m cs)) : ∀ l, Q l
  | [] => hnil
  | n :: rest => hcons n rest
      (fsInd P Q hnil hcons hfile hsym hspec hdir n)
      (fsIndList P Q hnil hcons hfile hsym hspec hdir rest)
end

/-! ## Walk invariants

scan_node_ok collects the structural facts the walk guarantees at every
entry it builds: directory and symlink flags are mutually exclusive,
only directories carry children, symlink entries are inert
(size = apparent_size = entry_count = 0, no children), and nothing is
marked during a scan. -/

def scan_node_ok (e : Entry) : Bool :=
  (!(e.meta.isDirectory && e.meta.isSymlink)) &&
  (e.meta.isDirectory || e.children.isEmpty) &&
  (!e.meta.isSymlink ||
    ((e.meta.size == 0) && (e.meta.apparentSize == 0) &&
     (e.meta.entryCount == 0) && e.children.isEmpty)) &&
  (e.meta.marked == false)

theorem scan_walk_ok (cfg : ScanConfig) (rootDev : Nat) :
    ∀ l : List FSNode, ∀ s : InodeSet,
      entry_all_list scan_node_ok (scan_entry_list cfg rootDev l s).1 = true := by
  have main := fsIndList
    (fun n => ∀ s e, (scan_entry cfg rootDev n s).1 = some e →
      entry_all scan_node_ok e = true)
    (fun l => ∀ s,
      entry_all_list scan_node_ok (scan_entry_list cfg rootDev l s).1 = true)
    (by intro s; simp [scan_entry_list, entry_all_list])
    (by
      intro n rest hP hQ s
      by_cases hskip :
          (!n.isSymlinkNode && cfg.stay_on_filesystem && !(n.fmeta.dev == rootDev)) = true
      · simp only [scan_entry_list, hskip, if_true]
        exact hQ s
      · simp only [scan_entry_list, hskip, if_false]
        rcases hse : scan_entry cfg rootDev n s with ⟨oe, psz, pcnt, s1⟩
        rcases hsl : scan_entry_list cfg rootDev rest s1 with ⟨es, psz2, pcnt2, s2⟩
        have hes : entry_all_list scan_node_ok es = true := by
          have := hQ s1
          rw [hsl] at this
          exact this
        cases oe with
        | none => simpa [hse, hsl] using hes
        | some e =>
            have he := hP s e (by rw [hse])
            simp only [hse, hsl]
            simp [entry_all_list, he, hes])
    (by
      intro m s e h
      rcases hsc : should_count_entry cfg s m.dev m.ino m.nlink with ⟨counted, s1⟩
      simp only [scan_entry, hsc, Option.some.injEq] at h
      subst h
      simp [entry_all, entry_all_list, scan_node_ok, Entry.meta_node,
        Entry.children_node])
    (by
      intro m s e h
      simp only [scan_entry, Option.some.injEq] at h
      subst h
      simp [entry_all, entry_all_list, scan_node_ok, symlink_child_entry,
        Entry.meta_node, Entry.children_node])
    (by
      intro m s e h
      simp [scan_entry] at h)
    (by
      intro m cs hQ s e h
      rcases hsl : scan_entry_list cfg rootDev cs s with ⟨es, sz, cnt, s1⟩
      simp only [scan_entry, hsl, Option.some.injEq] at h
      subst h
      have hes : entry_all_list scan_node_ok es = true := by
        have := hQ s
        rw [hsl] at this
        exact this
      simp [entry_all, scan_node_ok, Entry.meta_node, Entry.children_node, hes])
  exact main

theorem entry_all_list_imp (p q : Entry → Bool)
    (hpq : ∀ e, p e = true → q e = true) :
    ∀ l, entry_all_list p l = true → entry_all_list q l = true := by
  apply entryIndList
    (fun e => entry_all p e = true → entry_all q e = true)
    (fun l => entry_all_list p l = true → entry_all_list q l = true)
  · intro _; rfl
  · intro e l he hl h
    simp only [entry_all_list, Bool.and_eq_true] at h ⊢
    exact ⟨he h.1, hl h.2⟩
  · intro m cs hQ h
    simp only [entry_all, Bool.and_eq_true] at h ⊢
    exact ⟨hpq _ h.1, hQ h.2⟩

theorem entry_all_imp (p q : Entry → Bool)
    (hpq : ∀ e, p e = true → q e = true) :
    ∀ e, entry_all p e = true → entry_all q e = true := by
  intro e h
  cases e with
  | node m cs =>
      simp only [entry_all, Bool.and_eq_true] at h ⊢
      exact ⟨hpq _ h.1, entry_all_list_imp p q hpq cs h.2⟩

theorem scan_node_ok_wf (e : Entry) (h : scan_node_ok e = true) :
    leaf_no_children e = true := by
  unfold scan_node_ok at h
  unfold leaf_no_children
  simp only [Bool.and_eq_true] at h
  exact h.1.1.2

theorem calc_preserves_scan_ok :
    ∀ e, entry_all scan_node_ok e = true →
      entry_all scan_node_ok (calculate_sizes e) = true := by
  apply entryInd
    (fun e => entry_all scan_node_ok e = true →
      entry_all scan_node_ok (calculate_sizes e) = true)
    (fun l => entry_all_list scan_node_ok l = true →
      entry_all_list scan_node_ok (calc_sizes_list l) = true)
  · intro _; rfl
  · intro e l he hl h
    simp only [entry_all_list, Bool.and_eq_true] at h
    simp only [calc_sizes_list, entry_all_list, Bool.and_eq_true]
    exact ⟨he h.1, hl h.2⟩
  · intro m cs hQ h
    simp only [entry_all, Bool.and_eq_true] at h
    obtain ⟨hnode, hcs⟩ := h
    simp only [scan_node_ok, Entry.meta_node, Entry.children_node,
      Bool.and_eq_true] at hnode
    by_cases hd : m.isDirectory = true
    · have hsym : m.isSymlink = false := by
        have := hnode.1.1.1
        rw [hd] at this
        simpa using this
      rw [calculate_sizes_dir m cs hd]
      simp only [entry_all, Bool.and_eq_true]
      constructor
      · simp [scan_node_ok, Entry.meta_node, Entry.children_node, hd, hsym,
          hnode.2]
      · have hperm : (sortBySizeDesc (calc_sizes_list cs)).Perm (calc_sizes_list cs) :=
          List.perm_insertionSort sizeGe (calc_sizes_list cs)
        exact entry_all_list_of_perm scan_node_ok hperm.symm (hQ hcs)
    · have hb : m.isDirectory = false := by simpa using hd
      rw [calculate_sizes_nonDir m cs hb]
      simp only [entry_all, Bool.and_eq_true]
      refine ⟨?_, hcs⟩
      by_cases hs : m.isSymlink = true
      · have hinert := hnode.1.2
        rw [hs] at hinert
        simp only [Bool.not_true, Bool.false_or, Bool.and_eq_true,
          beq_iff_eq] at hinert
        obtain ⟨⟨⟨hsz, happ⟩, hcnt⟩, hempty⟩ := hinert
        simp [scan_node_ok, Entry.meta_node, Entry.children_node, hb, hs,
          hsz, happ, hempty, hnode.2]
      · have hs2 : m.isSymlink = false := by simpa using hs
        have hempty : cs.isEmpty = true := by
          have hw := hnode.1.1.2
          rw [hb] at hw
          simpa using hw
        simp [scan_node_ok, Entry.meta_node, Entry.children_node, hb, hs2,
          hempty, hnode.2]

theorem leaf_wf (m : EMeta) : entry_all leaf_no_children (.node m []) = true := by
  simp [entry_all, entry_all_list, leaf_no_children, Entry.meta_node,
    Entry.children_node]

/-- C1: after the roll-up pass that follows the walk, every directory
node D of the scanned tree satisfies conservation: D.size is the sum of
its children's sizes, and D.entry_count is the sum of its directory
children's entry counts plus the number of files counted directly under
D (the file children left with a nonzero size after dedup; the roll-up
assigns each such leaf the indicator entry count).  Leaf (non-directory)
entries keep the size attributed during the walk: the roll-up does not
change a non-directory's size. -/
theorem scan_conservation :
    (∀ (cfg : ScanConfig) (root : FSNode),
      entry_all rollup_ok (scan_root cfg root) = true) ∧
    (∀ (m : EMeta) (cs : List Entry), m.isDirectory = false →
      (calculate_sizes (Entry.node m cs)).meta.size = m.size) := by
  constructor
  · intro cfg root
    cases root with
    | dir m cs =>
        rcases hsl : scan_entry_list cfg m.dev cs [] with ⟨es, sz, cnt, s1⟩
        have hwalk : entry_all_list scan_node_ok es = true := by
          have := scan_walk_ok cfg m.dev cs []
          rw [hsl] at this
          exact this
        simp only [scan_root, scan_directory_impl, Entry.meta_node,
          Bool.false_eq_true, if_false, hsl, Entry.children_node,
          List.nil_append]
        apply rollup_conserves
        simp only [entry_all, Bool.and_eq_true]
        constructor
        · simp [leaf_no_children, Entry.meta_node]
        · exact entry_all_list_imp scan_node_ok leaf_no_children
            scan_node_ok_wf es hwalk
    | file m =>
        simp only [scan_root]
        exact rollup_conserves _ (leaf_wf _)
    | symlink m =>
        by_cases ht : m.targetIsDir = true
        · simp only [scan_root, ht, if_true, scan_directory_impl,
            Entry.meta_node]
          exact rollup_conserves _ (leaf_wf _)
        · have hf : m.targetIsDir = false := by simpa using ht
          simp only [scan_root, hf, Bool.false_eq_true, if_false]
          exact rollup_conserves _ (leaf_wf _)
    | special m =>
        simp only [scan_root]
        exact rollup_conserves _ (leaf_wf _)
  · intro m cs h
    rw [calculate_sizes_nonDir m cs h, Entry.meta_node]

/-- Witness for C1 at a concrete leaf: the roll-up keeps a walked file
size of 42 bytes unchanged. -/
theorem scan_conservation_witness :
    (calculate_sizes
      (Entry.node ⟨"f", false, false, 42, 42, 0, 1, 2, 1, false⟩ [])).meta.size = 42 :=
  scan_conservation.2 ⟨"f", false, false, 42, 42, 0, 1, 2, 1, false⟩ [] rfl

/-! ## Filesystem-boundary containment (spec invariant I5, claim C3) -/

/-- Attribution containment: every non-symlink entry carries the root's
device (symlink entries keep the constructor's zero identity and are
inert anyway). -/
def device_ok (rootDev : Nat) (e : Entry) : Bool :=
  e.meta.isSymlink || (e.meta.deviceId == rootDev)

theorem calc_preserves_device_ok (rootDev : Nat) :
    ∀ e, entry_all (device_ok rootDev) e = true →
      entry_all (device_ok rootDev) (calculate_sizes e) = true := by
  apply entryInd
    (fun e => entry_all (device_ok rootDev) e = true →
      entry_all (device_ok rootDev) (calculate_sizes e) = true)
    (fun l => entry_all_list (device_ok rootDev) l = true →
      entry_all_list (device_ok rootDev) (calc_sizes_list l) = true)
  · intro _; rfl
  · intro e l he hl h
    simp only [entry_all_list, Bool.and_eq_true] at h
    simp only [calc_sizes_list, entry_all_list, Bool.and_eq_true]
    exact ⟨he h.1, hl h.2⟩
  · intro m cs hQ h
    simp only [entry_all, Bool.and_eq_true] at h
    obtain ⟨hnode, hcs⟩ := h
    unfold device_ok at hnode
    rw [Entry.meta_node] at hnode
    by_cases hd : m.isDirectory = true
    · rw [calculate_sizes_dir m cs hd]
      simp only [entry_all, Bool.and_eq_true]
      constructor
      · unfold device_ok
        rw [Entry.meta_node]
        exact hnode
      · have hperm : (sortBySizeDesc (calc_sizes_list cs)).Perm (calc_sizes_list cs) :=
          List.perm_insertionSort sizeGe (calc_sizes_list cs)
        exact entry_all_list_of_perm _ hperm.symm (hQ hcs)
    · have hb : m.isDirectory = false := by simpa using hd
      rw [calculate_sizes_nonDir m cs hb]
      simp only [entry_all, Bool.and_eq_true]
      refine ⟨?_, hcs⟩
      unfold device_ok
      rw [Entry.meta_node]
      exact hnode

theorem scan_walk_device (cfg : ScanConfig) (hstay : cfg.stay_on_filesystem = true)
    (rootDev : Nat) :
    ∀ l : List FSNode, ∀ s : InodeSet,
      entry_all_list (device_ok rootDev) (scan_entry_list cfg rootDev l s).1 = true := by
  have main := fsIndList
    (fun n => ∀ s e, (n.isSymlinkNode = true ∨ n.fmeta.dev = rootDev) →
      (scan_entry cfg rootDev n s).1 = some e →
      entry_all (device_ok rootDev) e = true)
    (fun l => ∀ s,
      entry_all_list (device_ok rootDev) (scan_entry_list cfg rootDev l s).1 = true)
    (by intro s; simp [scan_entry_list, entry_all_list])
    (by
      intro n rest hP hQ s
      by_cases hskip :
          (!n.isSymlinkNode && cfg.stay_on_filesystem && !(n.fmeta.dev == rootDev)) = true
      · simp only [scan_entry_list, hskip, if_true]
        exact hQ s
      · have hpass : n.isSymlinkNode = true ∨ n.fmeta.dev = rootDev := by
          by_cases hs : n.isSymlinkNode = true
          · exact Or.inl hs
          · right
            by_cases hd : n.fmeta.dev = rootDev
            · exact hd
            · exfalso
              apply hskip
              have hs2 : n.isSymlinkNode = false := by simpa using hs
              simp [hs2, hstay, beq_iff_eq, hd]
        simp only [scan_entry_list, hskip, if_false]
        rcases hse : scan_entry cfg rootDev n s with ⟨oe, psz, pcnt, s1⟩
        rcases hsl : scan_entry_list cfg rootDev rest s1 with ⟨es, psz2, pcnt2, s2⟩
        have hes : entry_all_list (device_ok rootDev) es = true := by
          have := hQ s1
          rw [hsl] at this
          exact this
        cases oe with
        | none => simpa [hse, hsl] using hes
        | some e =>
            have he := hP s e hpass (by rw [hse])
            simp only [hse, hsl]
            simp [entry_all_list, he, hes])
    (by
      intro m s e hpass h
      have hdev : m.dev = rootDev := by
        rcases hpass with hs | hd
        · simp [FSNode.isSymlinkNode] at hs
        · exact hd
      rcases hsc : should_count_entry cfg s m.dev m.ino m.nlink with ⟨counted, s1⟩
      simp only [scan_entry, hsc, Option.some.injEq] at h
      subst h
      simp [entry_all, entry_all_list, device_ok, Entry.meta_node,
        Entry.children_node, hdev])
    (by
      intro m s e _ h
      simp only [scan_entry, Option.some.injEq] at h
      subst h
      simp [entry_all, entry_all_list, device_ok, symlink_child_entry,
        Entry.meta_node, Entry.children_node])
    (by
      intro m s e _ h
      simp [scan_entry] at h)
    (by
      intro m cs hQ s e hpass h
      have hdev : m.dev = rootDev := by
        rcases hpass with hs | hd
        · simp [FSNode.isSymlinkNode] at hs
        · exact hd
      rcases hsl : scan_entry_list cfg rootDev cs s with ⟨es, sz, cnt, s1⟩
      simp only [scan_entry, hsl, Option.some.injEq] at h
      subst h
      have hes : entry_all_list (device_ok rootDev) es = true := by
        have := hQ s
        rw [hsl] at this
        exact this
      simp [entry_all, device_ok, Entry.meta_node, Entry.children_node,
        hdev, hes])
  exact main

/-- C3 counterexample input: a root on device 1 whose subdirectory mnt
lives on device 2 and holds a 10 MB file, scanned with
stay_on_filesystem enabled. -/
def c3cfg : ScanConfig := ⟨true, false, true⟩

def c3fs : FSNode :=
  .dir ⟨"root", 1, 1, 1, 0, 0, false⟩
    [.dir ⟨"mnt", 2, 7, 1, 0, 0, false⟩
      [.file ⟨"big", 2, 8, 1, 10485760, 10485760, false⟩]]

/-- C3 counterexample: the boundary-crossing directory does not appear
in the tree at all — the walk hits the continue before the kind
dispatch, so mnt is never appended to the root's children (the claim
says it should appear as an entry with size 0).  The sizes do stay
contained: the root's size is 0. -/
theorem stay_on_filesystem_counterexample :
    (scan_root c3cfg c3fs).children = [] ∧
    (scan_root c3cfg c3fs).meta.size = 0 :=
  ⟨rfl, rfl⟩

/-- C3 amended: with stay_on_filesystem enabled, a child whose
device_id differs from the root's device contributes nothing to any
ancestor — it is skipped entirely and is not appended to the tree, so
the boundary-crossing directory does not appear as an entry at all.
Consequently every non-symlink entry of the scanned tree (walk output
and rolled-up root alike) carries the root's device_id. -/
theorem stay_on_filesystem_containment :
    (∀ (app chl : Bool) (rootDev : Nat) (l : List FSNode) (s : InodeSet),
      entry_all_list (device_ok rootDev)
        (scan_entry_list ⟨app, chl, true⟩ rootDev l s).1 = true) ∧
    (∀ (app chl : Bool) (m : FMeta) (cs : List FSNode),
      entry_all (device_ok m.dev)
        (scan_root ⟨app, chl, true⟩ (.dir m cs)) = true) := by
  constructor
  · intro app chl rootDev l s
    exact scan_walk_device ⟨app, chl, true⟩ rfl rootDev l s
  · intro app chl m cs
    rcases hsl : scan_entry_list ⟨app, chl, true⟩ m.dev cs [] with ⟨es, sz, cnt, s1⟩
    have hwalk : entry_all_list (device_ok m.dev) es = true := by
      have := scan_walk_device ⟨app, chl, true⟩ rfl m.dev cs []
      rw [hsl] at this
      exact this
    simp only [scan_root, scan_directory_impl, Entry.meta_node,
      Bool.false_eq_true, if_false, hsl, Entry.children_node,
      List.nil_append]
    apply calc_preserves_device_ok
    simp only [entry_all, Bool.and_eq_true]
    constructor
    · simp [device_ok, Entry.meta_node]
    · exact hwalk

/-! ## Symlink inertness (spec invariant I3, claim C4) -/

/-- A symlink entry is inert: size, apparent_size and entry_count are 0
and it has no children.  Vacuously true for non-symlinks. -/
def symlink_inert (e : Entry) : Bool :=
  !e.meta.isSymlink ||
    ((e.meta.size == 0) && (e.meta.apparentSize == 0) &&
     (e.meta.entryCount == 0) && e.children.isEmpty)

theorem scan_node_ok_inert (e : Entry) (h : scan_node_ok e = true) :
    symlink_inert e = true := by
  unfold scan_node_ok at h
  unfold symlink_inert
  simp only [Bool.and_eq_true] at h
  exact h.1.2

/-- C4 counterexample: a root path that is itself a symlink to a regular
file of length 100 bytes.  scan treats it through the file branch
(fs::file_size and stat follow the link), so the produced symlink entry
has size 100 — not 0 — and the roll-up then gives it entry_count 1. -/
theorem symlink_inertness_counterexample :
    (scan_root ⟨true, false, false⟩ (.symlink ⟨"link", 0, 0, 1, 100, 4096, false⟩)).meta.isSymlink
        = true ∧
    (scan_root ⟨true, false, false⟩ (.symlink ⟨"link", 0, 0, 1, 100, 4096, false⟩)).meta.size
        = 100 ∧
    (scan_root ⟨true, false, false⟩ (.symlink ⟨"link", 0, 0, 1, 100, 4096, false⟩)).meta.entryCount
        = 1 :=
  ⟨rfl, rfl, rfl⟩

/-- C4 amended: every symlink entry produced while enumerating a
directory is inert — size, apparent_size and entry_count all 0 and no
children — both in the walk output and in the rolled-up tree of a
directory root, and a scan-directory task for a symlink entry returns
immediately, without enumerating the target.  The one exception forced
by the code is a root path that is itself a symlink to a regular file,
which is measured through the link (see the counterexample). -/
theorem symlink_inertness :
    (∀ (cfg : ScanConfig) (rootDev : Nat) (l : List FSNode) (s : InodeSet),
      entry_all_list symlink_inert (scan_entry_list cfg rootDev l s).1 = true) ∧
    (∀ (cfg : ScanConfig) (m : FMeta) (cs : List FSNode),
      entry_all symlink_inert (scan_root cfg (.dir m cs)) = true) ∧
    (∀ (cfg : ScanConfig) (rootDev : Nat) (e : Entry) (items : List FSNode)
        (s : InodeSet), e.meta.isSymlink = true →
      scan_directory_impl cfg rootDev e items s = (e, s)) := by
  refine ⟨?_, ?_, ?_⟩
  · intro cfg rootDev l s
    exact entry_all_list_imp scan_node_ok symlink_inert scan_node_ok_inert _
      (scan_walk_ok cfg rootDev l s)
  · intro cfg m cs
    rcases hsl : scan_entry_list cfg m.dev cs [] with ⟨es, sz, cnt, s1⟩
    have hwalk : entry_all_list scan_node_ok es = true := by
      have := scan_walk_ok cfg m.dev cs []
      rw [hsl] at this
      exact this
    simp only [scan_root, scan_directory_impl, Entry.meta_node,
      Bool.false_eq_true, if_false, hsl, Entry.children_node,
      List.nil_append]
    apply entry_all_imp scan_node_ok symlink_inert scan_node_ok_inert
    apply calc_preserves_scan_ok
    simp only [entry_all, Bool.and_eq_true]
    constructor
    · simp [scan_node_ok, Entry.meta_node, Entry.children_node]
    · exact hwalk
  · intro cfg rootDev e items s h
    simp [scan_directory_impl, h]

/-- Witness for C4: a scan-directory task for a symlink entry returns
immediately even when the target directory has contents to enumerate. -/
theorem symlink_inertness_witness :
    scan_directory_impl ⟨true, false, false⟩ 1
      (Entry.node ⟨"l", false, true, 0, 0, 0, 0, 0, 1, false⟩ [])
      [.file ⟨"t", 1, 3, 1, 5, 5, false⟩] [] =
    (Entry.node ⟨"l", false, true, 0, 0, 0, 0, 0, 1, false⟩ [], []) :=
  symlink_inertness.2.2 ⟨true, false, false⟩ 1
    (Entry.node ⟨"l", false, true, 0, 0, 0, 0, 0, 1, false⟩ [])
    [.file ⟨"t", 1, 3, 1, 5, 5, false⟩] [] rfl

/-! ## Hard-link deduplication (spec invariant I4, claim C2) -/

/-! key_nonzero_count counts the file entries (not directories, not
symlinks) in a tree / forest whose inode key (device_id, inode) equals k
and whose size is nonzero. -/
mutual
def key_nonzero_count (k : Nat × Nat) : Entry → Nat
  | .node m cs =>
      (if m.isDirectory = false ∧ m.isSymlink = false ∧
          (m.deviceId, m.inode) = k ∧ 0 < m.size then 1 else 0) +
      key_nonzero_count_list k cs

def key_nonzero_count_list (k : Nat × Nat) : List Entry → Nat
  | [] => 0
  | e :: rest => key_nonzero_count k e + key_nonzero_count_list k rest
end

/-! hl_ok k is the premise of invariant I4: every regular file of the
filesystem carrying inode key k has link_count > 1 (files sharing an
inode necessarily share its link count, which is at least the number of
links; the code consults each entry's own stat, so the statement needs
this fact about the input). -/
mutual
def hl_ok (k : Nat × Nat) : FSNode → Bool
  | .file m => !(((m.dev, m.ino) : Nat × Nat) == k) || decide (1 < m.nlink)
  | .dir _ cs => hl_ok_list k cs
  | .symlink _ => true
  | .special _ => true

def hl_ok_list (k : Nat × Nat) : List FSNode → Bool
  | [] => true
  | n :: rest => hl_ok k n && hl_ok_list k rest
end

def key_nonzero_count_opt (k : Nat × Nat) : Option Entry → Nat
  | some e => key_nonzero_count k e
  | none => 0

theorem should_count_cases (cfg : ScanConfig) (hch : cfg.count_hard_links = false)
    (s : InodeSet) (dev ino nlink : Nat) :
    (¬ 1 < nlink ∧ should_count_entry cfg s dev ino nlink = (true, s)) ∨
    (1 < nlink ∧ (dev, ino) ∈ s ∧
      should_count_entry cfg s dev ino nlink = (false, s)) ∨
    (1 < nlink ∧ (dev, ino) ∉ s ∧
      should_count_entry cfg s dev ino nlink = (true, (dev, ino) :: s)) := by
  unfold should_count_entry
  rw [hch]
  by_cases hn : 1 < nlink
  · by_cases hm : (dev, ino) ∈ s
    · refine Or.inr (Or.inl ⟨hn, hm, ?_⟩)
      simp [hn, hm]
    · refine Or.inr (Or.inr ⟨hn, hm, ?_⟩)
      simp [hn, hm]
  · refine Or.inl ⟨hn, ?_⟩
    simp [hn]

theorem key_count_list_eq_sum (k : Nat × Nat) :
    ∀ l : List Entry,
      key_nonzero_count_list k l = (l.map (key_nonzero_count k)).sum := by
  intro l
  induction l with
  | nil => rfl
  | cons e rest ih => simp [key_nonzero_count_list, ih]

theorem calc_key_count (k : Nat × Nat) :
    ∀ e, key_nonzero_count k (calculate_sizes e) = key_nonzero_count k e := by
  apply entryInd
    (fun e => key_nonzero_count k (calculate_sizes e) = key_nonzero_count k e)
    (fun l => key_nonzero_count_list k (calc_sizes_list l) =
      key_nonzero_count_list k l)
  · rfl
  · intro e l he hl
    simp [calc_sizes_list, key_nonzero_count_list, he, hl]
  · intro m cs hQ
    by_cases hd : m.isDirectory = true
    · rw [calculate_sizes_dir m cs hd]
      have hperm : (sortBySizeDesc (calc_sizes_list cs)).Perm (calc_sizes_list cs) :=
        List.perm_insertionSort sizeGe (calc_sizes_list cs)
      have hsorted : key_nonzero_count_list k (sortBySizeDesc (calc_sizes_list cs)) =
          key_nonzero_count_list k (calc_sizes_list cs) := by
        rw [key_count_list_eq_sum, key_count_list_eq_sum]
        exact (hperm.map (key_nonzero_count k)).sum_eq
      simp [key_nonzero_count, hd, hsorted, hQ]
    · have hb : m.isDirectory = false := by simpa using hd
      rw [calculate_sizes_nonDir m cs hb]
      simp [key_nonzero_count]

theorem dedup_invariant (cfg : ScanConfig) (hch : cfg.count_hard_links = false)
    (rootDev : Nat) (k : Nat × Nat) :
    ∀ l : List FSNode, ∀ s : InodeSet, hl_ok_list k l = true →
      (key_nonzero_count_list k (scan_entry_list cfg rootDev l s).1 ≤
        (if k ∈ s then 0 else 1)) ∧
      (∀ x ∈ s, x ∈ (scan_entry_list cfg rootDev l s).2.2.2) ∧
      (1 ≤ key_nonzero_count_list k (scan_entry_list cfg rootDev l s).1 →
        k ∈ (scan_entry_list cfg rootDev l s).2.2.2) := by
  have main := fsIndList
    (fun n => ∀ s : InodeSet, hl_ok k n = true →
      (key_nonzero_count_opt k (scan_entry cfg rootDev n s).1 ≤
        (if k ∈ s then 0 else 1)) ∧
      (∀ x ∈ s, x ∈ (scan_entry cfg rootDev n s).2.2.2) ∧
      (1 ≤ key_nonzero_count_opt k (scan_entry cfg rootDev n s).1 →
        k ∈ (scan_entry cfg rootDev n s).2.2.2))
    (fun l => ∀ s : InodeSet, hl_ok_list k l = true →
      (key_nonzero_count_list k (scan_entry_list cfg rootDev l s).1 ≤
        (if k ∈ s then 0 else 1)) ∧
      (∀ x ∈ s, x ∈ (scan_entry_list cfg rootDev l s).2.2.2) ∧
      (1 ≤ key_nonzero_count_list k (scan_entry_list cfg rootDev l s).1 →
        k ∈ (scan_entry_list cfg rootDev l s).2.2.2))
    (by
      intro s _
      refine ⟨?_, fun x hx => hx, ?_⟩
      · simp only [scan_entry_list, key_nonzero_count_list]
        split <;> omega
      · intro h
        simp [scan_entry_list, key_nonzero_count_list] at h)
    (by
      intro n rest hP hQ s hl
      simp only [hl_ok_list, Bool.and_eq_true] at hl
      by_cases hskip :
          (!n.isSymlinkNode && cfg.stay_on_filesystem && !(n.fmeta.dev == rootDev)) = true
      · simp only [scan_entry_list, hskip, if_true]
        exact hQ s hl.2
      · have hskip2 : (!n.isSymlinkNode && cfg.stay_on_filesystem &&
            !(n.fmeta.dev == rootDev)) = false := by
          revert hskip
          cases (!n.isSymlinkNode && cfg.stay_on_filesystem &&
            !(n.fmeta.dev == rootDev)) <;> simp
        rcases hse : scan_entry cfg rootDev n s with ⟨oe, psz, pcnt, s1⟩
        rcases hsl : scan_entry_list cfg rootDev rest s1 with ⟨es, psz2, pcnt2, s2⟩
        have hn := hP s hl.1
        rw [hse] at hn
        have hr := hQ s1 hl.2
        rw [hsl] at hr
        simp only at hn hr
        simp only [scan_entry_list, hskip2, Bool.false_eq_true, if_false,
          hse, hsl]
        clear hse hsl
        cases oe with
        | none =>
            simp only [scan_entry_list, hskip2, Bool.false_eq_true, if_false,
              key_nonzero_count_opt] at hn ⊢
            refine ⟨?_, ?_, ?_⟩
            · by_cases hk : k ∈ s
              · have hk1 : k ∈ s1 := hn.2.1 k hk
                have h2 := hr.1
                rw [if_pos hk1] at h2
                rw [if_pos hk]
                omega
              · rw [if_neg hk]
                have h2 := hr.1
                split at h2 <;> omega
            · intro x hx
              exact hr.2.1 x (hn.2.1 x hx)
            · intro h
              exact hr.2.2 h
        | some e =>
            simp only [scan_entry_list, hskip2, Bool.false_eq_true, if_false,
              key_nonzero_count_opt, key_nonzero_count_list] at hn ⊢
            refine ⟨?_, ?_, ?_⟩
            · by_cases hk : k ∈ s
              · have h1 : key_nonzero_count k e = 0 := by
                  have := hn.1
                  rw [if_pos hk] at this
                  omega
                have hk1 : k ∈ s1 := hn.2.1 k hk
                have h2 := hr.1
                rw [if_pos hk1] at h2
                rw [if_pos hk]
                omega
              · rw [if_neg hk]
                by_cases hk1 : k ∈ s1
                · have h2 := hr.1
                  rw [if_pos hk1] at h2
                  have h1 := hn.1
                  rw [if_neg hk] at h1
                  omega
                · have h2 := hr.1
                  rw [if_neg hk1] at h2
                  have h1 : key_nonzero_count k e = 0 := by
                    by_cases hz : 1 ≤ key_nonzero_count k e
                    · exact absurd (hn.2.2 hz) hk1
                    · omega
                  omega
            · intro x hx
              exact hr.2.1 x (hn.2.1 x hx)
            · intro h
              by_cases hz : 1 ≤ key_nonzero_count k e
              · exact hr.2.1 k (hn.2.2 hz)
              · have : 1 ≤ key_nonzero_count_list k es := by omega
                exact hr.2.2 this)
    (by
      intro m s hl
      simp only [hl_ok] at hl
      rcases should_count_cases cfg hch s m.dev m.ino m.nlink with
        ⟨hn1, heq⟩ | ⟨hn1, hmem, heq⟩ | ⟨hn1, hmem, heq⟩
      · have hkk : ¬ ((m.dev, m.ino) : Nat × Nat) = k := by
          intro hk
          rw [hk] at hl
          simp only [beq_self_eq_true, Bool.not_true, Bool.false_or,
            decide_eq_true_eq] at hl
          exact hn1 hl
        refine ⟨?_, fun x hx => by simpa [scan_entry, heq] using hx, ?_⟩
        · simp [scan_entry, heq, key_nonzero_count_opt, key_nonzero_count,
            key_nonzero_count_list, hkk]
        · intro h
          simp [scan_entry, heq, key_nonzero_count_opt, key_nonzero_count,
            key_nonzero_count_list, hkk] at h
      · refine ⟨?_, fun x hx => by simpa [scan_entry, heq] using hx, ?_⟩
        · simp [scan_entry, heq, key_nonzero_count_opt, key_nonzero_count,
            key_nonzero_count_list]
        · intro h
          simp [scan_entry, heq, key_nonzero_count_opt, key_nonzero_count,
            key_nonzero_count_list] at h
      · by_cases hkk : ((m.dev, m.ino) : Nat × Nat) = k
        · have hks : k ∉ s := by
            rw [← hkk]
            exact hmem
          refine ⟨?_, ?_, ?_⟩
          · rw [if_neg hks]
            by_cases hsz : 0 < effective_size cfg m
            · simp [scan_entry, heq, key_nonzero_count_opt,
                key_nonzero_count, key_nonzero_count_list, hsz, hkk]
            · simp [scan_entry, heq, key_nonzero_count_opt,
                key_nonzero_count, key_nonzero_count_list, hsz, hkk]
          · intro x hx
            simp only [scan_entry, heq]
            exact List.mem_cons_of_mem _ hx
          · intro _
            simp only [scan_entry, heq]
            rw [← hkk]
            exact List.mem_cons_self _ _
        · refine ⟨?_, ?_, ?_⟩
          · simp [scan_entry, heq, key_nonzero_count_opt, key_nonzero_count,
              key_nonzero_count_list, hkk]
          · intro x hx
            simp only [scan_entry, heq]
            exact List.mem_cons_of_mem _ hx
          · intro h
            simp [scan_entry, heq, key_nonzero_count_opt, key_nonzero_count,
              key_nonzero_count_list, hkk] at h)
    (by
      intro m s _
      refine ⟨?_, fun x hx => hx, ?_⟩
      · simp [scan_entry, key_nonzero_count_opt, symlink_child_entry,
          key_nonzero_count, key_nonzero_count_list]
      · intro h
        simp [scan_entry, key_nonzero_count_opt, symlink_child_entry,
          key_nonzero_count, key_nonzero_count_list] at h)
    (by
      intro m s _
      refine ⟨?_, fun x hx => hx, ?_⟩
      · simp [scan_entry, key_nonzero_count_opt]
      · intro h
        simp [scan_entry, key_nonzero_count_opt] at h)
    (by
      intro m cs hQ s hl
      have hcs := hQ s (by simpa [hl_ok] using hl)
      rcases hsl : scan_entry_list cfg rootDev cs s with ⟨es, sz, cnt, s1⟩
      rw [hsl] at hcs
      simp only at hcs
      simp only [scan_entry, hsl]
      refine ⟨?_, hcs.2.1, ?_⟩
      · simpa [key_nonzero_count_opt, key_nonzero_count] using hcs.1
      · intro h
        apply hcs.2.2
        simpa [key_nonzero_count_opt, key_nonzero_count] using h)
  exact main

/-- C2 fixture: a directory holding two hard links x and y to the same
inode (1, 5), each 4096 bytes with link count 2 (scenario 2 of the
spec, scanned with apparent_size on and hard-link counting disabled). -/
def hl_root : FMeta := ⟨"root", 1, 9, 1, 0, 0, false⟩

def hl_items : List FSNode :=
  [.file ⟨"x", 1, 5, 2, 4096, 4096, false⟩,
   .file ⟨"y", 1, 5, 2, 4096, 4096, false⟩]

/-- C2: with hard-link counting disabled, for every inode key k whose
files all have link_count > 1, at most one file entry of the whole scan
(root scan, walk and roll-up included) carries a nonzero size; and on
the concrete two-hard-link directory the root ends with size 4096,
entry_count 1, and child sizes 4096 and 0 — the file is counted once. -/
theorem hard_link_dedup :
    (∀ (app stay : Bool) (m : FMeta) (items : List FSNode) (k : Nat × Nat),
      hl_ok_list k items = true →
      key_nonzero_count k (scan_root ⟨app, false, stay⟩ (.dir m items)) ≤ 1) ∧
    ((scan_root ⟨true, false, false⟩ (.dir hl_root hl_items)).meta.size = 4096 ∧
     (scan_root ⟨true, false, false⟩ (.dir hl_root hl_items)).meta.entryCount = 1 ∧
     (scan_root ⟨true, false, false⟩ (.dir hl_root hl_items)).children.map
        (fun c => c.meta.size) = [4096, 0]) := by
  constructor
  · intro app stay m items k hl
    rcases hsl : scan_entry_list ⟨app, false, stay⟩ m.dev items [] with ⟨es, sz, cnt, s1⟩
    have hinv := (dedup_invariant ⟨app, false, stay⟩ rfl m.dev k items [] hl).1
    rw [hsl] at hinv
    simp only at hinv
    have hes : key_nonzero_count_list k es ≤ 1 := by
      rw [if_neg (List.not_mem_nil k)] at hinv
      exact hinv
    simp only [scan_root, scan_directory_impl, Entry.meta_node,
      Bool.false_eq_true, if_false, hsl, Entry.children_node,
      List.nil_append]
    rw [calc_key_count]
    simp only [key_nonzero_count]
    have hz : (if (true = false ∧ false = false ∧
        ((1 : Nat), (1 : Nat)) = k ∧ 0 < 0) then 1 else 0) = 0 := by
      simp
    simpa using hes
  · exact ⟨by decide, by decide, by decide⟩

/-- Witness for C2: the general dedup bound applied to the concrete
two-hard-link fixture at its inode key (1, 5). -/
theorem hard_link_dedup_witness :
    hl_ok_list (1, 5) hl_items = true ∧
    key_nonzero_count (1, 5)
      (scan_root ⟨true, false, false⟩ (.dir hl_root hl_items)) ≤ 1 :=
  ⟨by decide, hard_link_dedup.1 true false hl_root hl_items (1, 5) (by decide)⟩

/-! ## Interactive UI: marking, deletion, refresh (dua_ui.cpp)

The UI state kept by InteractiveUI that the claims observe: the root
entries, the current directory, the navigation stack, cursor and scroll
offset, and the MarkPane's item list (MarkPane::marked_items — in C++ a
vector of shared_ptr into the tree; values here play the role of those
pointers, so an unreplaced list keeps referring to the pre-refresh
nodes). -/

structure UIState where
  roots : List Entry
  currentDir : Entry
  navStack : List Entry
  selectedIndex : Nat
  viewOffset : Nat
  markPaneItems : List Entry

/-! MarkPane::collect_marked_recursive (dua_ui.cpp lines 170-182): push
every marked node, and descend into the children of every non-symlink
directory (marked or not). -/
mutual
def collect_marked_recursive : Entry → List Entry
  | .node m cs =>
      (if m.marked then [Entry.node m cs] else []) ++
      (if m.isDirectory && !m.isSymlink then collect_marked_list cs else [])

def collect_marked_list : List Entry → List Entry
  | [] => []
  | e :: rest => collect_marked_recursive e ++ collect_marked_list rest
end

/-- Comparator of MarkPane::update_marked_items: ascending path order. -/
def pathLe (a b : Entry) : Prop := a.meta.path ≤ b.meta.path

instance : DecidableRel pathLe :=
  fun a b => inferInstanceAs (Decidable (a.meta.path ≤ b.meta.path))

/-- MarkPane::update_marked_items (dua_ui.cpp lines 32-68): rebuild the
item list from scratch by sweeping all roots and sorting by path. -/
def update_marked_items (roots : List Entry) : List Entry :=
  List.insertionSort pathLe (collect_marked_list roots)

/-- Virtual root built by refresh_all when more than one root is
configured: size and entry_count accumulate the roots' totals. -/
def virtual_root (rs : List Entry) : Entry :=
  .node ⟨"", true, false, (rs.map (fun r => r.meta.size)).sum, 0,
    (rs.map (fun r => r.meta.entryCount)).sum, 0, 0, 1, false⟩ rs

/-- InteractiveUI::refresh_all (dua_ui.cpp lines 1757-1789): rescan the
configured paths (fsPaths is their current filesystem state), replace
the root list, reset navigation stack, current directory, cursor and
offset.  The body contains no call to mark_pane.update_marked_items or
mark_pane.remove_all: the MarkPane field is carried over unchanged. -/
def refresh_all (cfg : ScanConfig) (ui : UIState) (fsPaths : List FSNode) :
    UIState :=
  let newRoots := fsPaths.map (scan_root cfg)
  if 1 < ui.roots.length then
    let vr := virtual_root newRoots
    ⟨newRoots, vr, [vr], 0, 0, ui.markPaneItems⟩
  else
    let cd := newRoots.headD default
    ⟨newRoots, cd, [cd], 0, 0, ui.markPaneItems⟩

def entry_unmarked (e : Entry) : Bool := e.meta.marked == false

theorem scan_node_ok_unmarked (e : Entry) (h : scan_node_ok e = true) :
    entry_unmarked e = true := by
  unfold scan_node_ok at h
  unfold entry_unmarked
  simp only [Bool.and_eq_true] at h
  exact h.2

theorem calc_preserves_unmarked :
    ∀ e, entry_all entry_unmarked e = true →
      entry_all entry_unmarked (calculate_sizes e) = true := by
  apply entryInd
    (fun e => entry_all entry_unmarked e = true →
      entry_all entry_unmarked (calculate_sizes e) = true)
    (fun l => entry_all_list entry_unmarked l = true →
      entry_all_list entry_unmarked (calc_sizes_list l) = true)
  · intro _; rfl
  · intro e l he hl h
    simp only [entry_all_list, Bool.and_eq_true] at h
    simp only [calc_sizes_list, entry_all_list, Bool.and_eq_true]
    exact ⟨he h.1, hl h.2⟩
  · intro m cs hQ h
    simp only [entry_all, Bool.and_eq_true] at h
    obtain ⟨hnode, hcs⟩ := h
    unfold entry_unmarked at hnode
    rw [Entry.meta_node] at hnode
    by_cases hd : m.isDirectory = true
    · rw [calculate_sizes_dir m cs hd]
      simp only [entry_all, Bool.and_eq_true]
      constructor
      · unfold entry_unmarked
        rw [Entry.meta_node]
        exact hnode
      · have hperm : (sortBySizeDesc (calc_sizes_list cs)).Perm (calc_sizes_list cs) :=
          List.perm_insertionSort sizeGe (calc_sizes_list cs)
        exact entry_all_list_of_perm _ hperm.symm (hQ hcs)
    · have hb : m.isDirectory = false := by simpa using hd
      rw [calculate_sizes_nonDir m cs hb]
      simp only [entry_all, Bool.and_eq_true]
      refine ⟨?_, hcs⟩
      unfold entry_unmarked
      rw [Entry.meta_node]
      exact hnode

theorem leaf_unmarked (m : EMeta) (h : m.marked = false) :
    entry_all entry_unmarked (.node m []) = true := by
  simp [entry_all, entry_all_list, entry_unmarked, Entry.meta_node, h]

theorem scan_output_unmarked (cfg : ScanConfig) :
    ∀ root, entry_all entry_unmarked (scan_root cfg root) = true := by
  intro root
  cases root with
  | dir m cs =>
      rcases hsl : scan_entry_list cfg m.dev cs [] with ⟨es, sz, cnt, s1⟩
      have hwalk : entry_all_list scan_node_ok es = true := by
        have := scan_walk_ok cfg m.dev cs []
        rw [hsl] at this
        exact this
      simp only [scan_root, scan_directory_impl, Entry.meta_node,
        Bool.false_eq_true, if_false, hsl, Entry.children_node,
        List.nil_append]
      apply calc_preserves_unmarked
      simp only [entry_all, Bool.and_eq_true]
      constructor
      · simp [entry_unmarked, Entry.meta_node]
      · exact entry_all_list_imp scan_node_ok entry_unmarked
          scan_node_ok_unmarked es hwalk
  | file m =>
      simp only [scan_root]
      exact calc_preserves_unmarked _ (leaf_unmarked _ rfl)
  | symlink m =>
      by_cases ht : m.targetIsDir = true
      · simp only [scan_root, ht, if_true, scan_directory_impl,
          Entry.meta_node]
        exact calc_preserves_unmarked _ (leaf_unmarked _ rfl)
      · have hf : m.targetIsDir = false := by simpa using ht
        simp only [scan_root, hf, Bool.false_eq_true, if_false]
        exact calc_preserves_unmarked _ (leaf_unmarked _ rfl)
  | special m =>
      simp only [scan_root]
      exact calc_preserves_unmarked _ (leaf_unmarked _ rfl)

theorem collect_marked_nil_of_unmarked :
    ∀ l, entry_all_list entry_unmarked l = true → collect_marked_list l = [] := by
  apply entryIndList
    (fun e => entry_all entry_unmarked e = true →
      collect_marked_recursive e = [])
    (fun l => entry_all_list entry_unmarked l = true →
      collect_marked_list l = [])
  · intro _; rfl
  · intro e l he hl h
    simp only [entry_all_list, Bool.and_eq_true] at h
    simp only [collect_marked_list, he h.1, hl h.2, List.nil_append]
  · intro m cs hQ h
    simp only [entry_all, Bool.and_eq_true] at h
    have hm : m.marked = false := by
      have := h.1
      unfold entry_unmarked at this
      rw [Entry.meta_node] at this
      simpa using this
    simp only [collect_marked_recursive, hm, Bool.false_eq_true, if_false,
      List.nil_append]
    by_cases hk : (m.isDirectory && !m.isSymlink) = true
    · simp only [hk, if_true]
      exact hQ (h.2)
    · have hk2 : (m.isDirectory && !m.isSymlink) = false := by
        revert hk
        cases (m.isDirectory && !m.isSymlink) <;> simp
      simp [hk2]

/-- C6 counterexample fixture: before the refresh the user has marked
the single file under the only root, so the MarkPane holds that node;
the filesystem is unchanged. -/
def marked_file : Entry := .node ⟨"root/f", false, false, 100, 100, 0, 1, 2, 1, true⟩ []

def old_root : Entry := .node ⟨"root", true, false, 100, 0, 1, 1, 1, 1, false⟩ [marked_file]

def ui0 : UIState := ⟨[old_root], old_root, [old_root], 0, 0, [marked_file]⟩

def fs0 : List FSNode :=
  [.dir ⟨"root", 1, 1, 1, 0, 0, false⟩ [.file ⟨"f", 1, 2, 1, 100, 4096, false⟩]]

/-- C6 counterexample: pressing R (refresh_all) with a marked entry
leaves the MarkPane holding exactly the pre-refresh node, while the set
of marked entries reachable from the new roots is empty (a fresh scan
marks nothing) — so MarkPane membership does not equal the marked
reachable set, and a node from before the refresh persists. -/
theorem refresh_markpane_counterexample :
    (refresh_all ⟨true, false, false⟩ ui0 fs0).markPaneItems = [marked_file] ∧
    collect_marked_list (refresh_all ⟨true, false, false⟩ ui0 fs0).roots = [] ∧
    (refresh_all ⟨true, false, false⟩ ui0 fs0).markPaneItems ≠
      collect_marked_list (refresh_all ⟨true, false, false⟩ ui0 fs0).roots := by
  refine ⟨rfl, rfl, ?_⟩
  intro h
  exact absurd (congrArg List.length h) (by decide)

/-- C6 amended: refresh_all does not rebuild the MarkSet.  Its body
replaces the roots, current directory, navigation stack, cursor and
offset but never touches the MarkPane, whose membership stays exactly
what it was before the refresh (stale pre-refresh nodes persist), while
every entry reachable from the freshly scanned roots is unmarked, so a
rebuild (update_marked_items) would produce the empty list.  The
MarkSet is rebuilt only by explicit marking actions, and emptied by the
deletion path via remove_all before its refresh. -/
theorem refresh_all_markpane :
    (∀ (cfg : ScanConfig) (ui : UIState) (fsPaths : List FSNode),
      (refresh_all cfg ui fsPaths).markPaneItems = ui.markPaneItems) ∧
    (∀ (cfg : ScanConfig) (ui : UIState) (fsPaths : List FSNode),
      collect_marked_list (refresh_all cfg ui fsPaths).roots = [] ∧
      update_marked_items (refresh_all cfg ui fsPaths).roots = []) := by
  have hroots : ∀ (cfg : ScanConfig) (ui : UIState) (fsPaths : List FSNode),
      (refresh_all cfg ui fsPaths).roots = fsPaths.map (scan_root cfg) := by
    intro cfg ui fsPaths
    unfold refresh_all
    split <;> rfl
  have hunmarked : ∀ (cfg : ScanConfig) (fsPaths : List FSNode),
      entry_all_list entry_unmarked (fsPaths.map (scan_root cfg)) = true := by
    intro cfg fsPaths
    induction fsPaths with
    | nil => rfl
    | cons p rest ih =>
        simp only [List.map_cons, entry_all_list, Bool.and_eq_true]
        exact ⟨scan_output_unmarked cfg p, ih⟩
  constructor
  · intro cfg ui fsPaths
    unfold refresh_all
    split <;> rfl
  · intro cfg ui fsPaths
    have hnil : collect_marked_list (refresh_all cfg ui fsPaths).roots = [] := by
      rw [hroots]
      exact collect_marked_nil_of_unmarked _ (hunmarked cfg fsPaths)
    refine ⟨hnil, ?_⟩
    unfold update_marked_items
    rw [hnil]
    rfl

/-! ## Deletion confirmation (claim C5)

InteractiveUI::delete_marked_entries (dua_ui.cpp lines 1661-1716):
collect the marked entries under the current directory (stopping at
each marked node), return at once when there are none, prompt, and
return without touching anything unless the typed confirmation is
exactly the literal YES.  Only then does the loop remove each entry
from the filesystem (remove_all for directories) and clear its mark;
the mark-pane reset and the subsequent refresh_all are separate calls
modelled by refresh_all above. -/

mutual
def collect_marked_entries : Entry → List Entry
  | .node m cs =>
      if m.marked then [Entry.node m cs]
      else if m.isDirectory && !m.isSymlink then collect_marked_entries_list cs
      else []

def collect_marked_entries_list : List Entry → List Entry
  | [] => []
  | e :: rest => collect_marked_entries e ++ collect_marked_entries_list rest
end

/-! clear_frontier_marks is the tree effect of the deletion loop's
entry->marked = false on each collected entry (every removal succeeds
in the model). -/
mutual
def clear_frontier_marks : Entry → Entry
  | .node m cs =>
      if m.marked then .node { m with marked := false } cs
      else if m.isDirectory && !m.isSymlink then
        .node m (clear_frontier_marks_list cs)
      else .node m cs

def clear_frontier_marks_list : List Entry → List Entry
  | [] => []
  | e :: rest => clear_frontier_marks e :: clear_frontier_marks_list rest
end

/-- fs::remove_all on path p over a filesystem modelled as the list of
its paths: p and everything below it disappear. -/
def remove_tree (p : String) (fsys : List String) : List String :=
  fsys.filter (fun q => !(q == p || String.startsWith q (p ++ "/")))

def delete_marked_entries (confirmation : String) (currentDir : Entry)
    (fsys : List String) : Entry × List String :=
  let marked := collect_marked_entries currentDir
  if marked.isEmpty then (currentDir, fsys)
  else if confirmation ≠ "YES" then (currentDir, fsys)
  else
    (clear_frontier_marks currentDir,
     marked.foldl (fun fs e => remove_tree e.meta.path fs) fsys)

/-- C5: deletion proceeds only on the exact, case-sensitive confirmation
YES; any other input removes nothing from the filesystem and leaves
every entry — sizes, children and marked flags — unchanged. -/
theorem delete_requires_yes (confirmation : String) (currentDir : Entry)
    (fsys : List String) (h : confirmation ≠ "YES") :
    delete_marked_entries confirmation currentDir fsys = (currentDir, fsys) := by
  unfold delete_marked_entries
  by_cases he : (collect_marked_entries currentDir).isEmpty
  · simp [he]
  · simp [he, h]

def lowercase_yes : String := "yes"

def delete_witness_dir : Entry :=
  Entry.node ⟨"d", true, false, 100, 0, 1, 1, 1, 1, false⟩
    [Entry.node ⟨"d/f", false, false, 100, 100, 0, 1, 2, 1, true⟩ []]

/-- Witness for C5: typing the lowercase yes with a marked file present
deletes nothing and changes nothing. -/
theorem delete_requires_yes_witness :
    (lowercase_yes ≠ "YES") ∧
    delete_marked_entries lowercase_yes delete_witness_dir ["d", "d/f"] =
      (delete_witness_dir, ["d", "d/f"]) :=
  ⟨by decide,
   delete_requires_yes lowercase_yes delete_witness_dir ["d", "d/f"]
     (by decide)⟩

/-! ## Mark-all toggle (claim C9)

InteractiveUI::toggle_all_marks (dua_ui.cpp lines 1560-1573): read
any_marked = has_marked_items() over the current view, then set every
view entry's marked flag to the negation. -/

def Entry.setMarked (b : Bool) : Entry → Entry
  | .node m cs => .node { m with marked := b } cs

def has_marked_items (view : List Entry) : Bool :=
  view.any (fun e => e.meta.marked)

def toggle_all_marks (view : List Entry) : List Entry :=
  let any_marked := has_marked_items view
  view.map (Entry.setMarked (!any_marked))

theorem setMarked_marked (b : Bool) (e : Entry) :
    (Entry.setMarked b e).meta.marked = b := by
  cases e with
  | node m cs => rfl

theorem setMarked_setMarked (b c : Bool) (e : Entry) :
    Entry.setMarked b (Entry.setMarked c e) = Entry.setMarked b e := by
  cases e with
  | node m cs => rfl

theorem setMarked_eq_self (e : Entry) (h : e.meta.marked = false) :
    Entry.setMarked false e = e := by
  cases e with
  | node m cs =>
      rw [Entry.meta_node] at h
      unfold Entry.setMarked
      cases m
      simp only [EMeta.mk.injEq] at h ⊢
      simp_all

/-- C9: mark-all is a toggle over the current view: starting from a view
with nothing marked, one application marks every entry in the view and a
second application returns the view to its original, fully unmarked
state. -/
theorem toggle_all_marks_toggle (view : List Entry)
    (h : ∀ e ∈ view, e.meta.marked = false) :
    (∀ e ∈ toggle_all_marks view, e.meta.marked = true) ∧
    toggle_all_marks (toggle_all_marks view) = view := by
  have hany : has_marked_items view = false := by
    unfold has_marked_items
    rw [List.any_eq_false]
    intro e he
    simp [h e he]
  constructor
  · intro e he
    unfold toggle_all_marks at he
    rw [hany] at he
    obtain ⟨c, _, rfl⟩ := List.mem_map.mp he
    simp [setMarked_marked]
  · cases view with
    | nil => rfl
    | cons v vs =>
        have hfirst : toggle_all_marks (v :: vs) =
            (v :: vs).map (Entry.setMarked true) := by
          unfold toggle_all_marks
          rw [hany]
          rfl
        have hany2 : has_marked_items ((v :: vs).map (Entry.setMarked true)) = true := by
          unfold has_marked_items
          simp only [List.map_cons, List.any_cons, setMarked_marked,
            Bool.true_or]
        rw [hfirst]
        unfold toggle_all_marks
        rw [hany2]
        simp only [Bool.not_true, List.map_map]
        have : ∀ l : List Entry, (∀ e ∈ l, e.meta.marked = false) →
            l.map (Entry.setMarked false ∘ Entry.setMarked true) = l := by
          intro l hl
          induction l with
          | nil => rfl
          | cons x xs ih =>
              simp only [List.map_cons, Function.comp_apply,
                setMarked_setMarked, List.cons.injEq]
              refine ⟨setMarked_eq_self x (hl x (List.mem_cons_self x xs)), ?_⟩
              exact ih (fun e he => hl e (List.mem_cons_of_mem x he))
        exact this (v :: vs) h

/-- Witness for C9: a one-entry unmarked view toggles to marked and back
to its original state. -/
theorem toggle_all_marks_witness :
    (∀ e ∈ [Entry.node ⟨"p", false, false, 100, 100, 0, 1, 2, 1, false⟩ []],
      e.meta.marked = false) ∧
    ((∀ e ∈ toggle_all_marks
        [Entry.node ⟨"p", false, false, 100, 100, 0, 1, 2, 1, false⟩ []],
      e.meta.marked = true) ∧
     toggle_all_marks (toggle_all_marks
        [Entry.node ⟨"p", false, false, 100, 100, 0, 1, 2, 1, false⟩ []]) =
       [Entry.node ⟨"p", false, false, 100, 100, 0, 1, 2, 1, false⟩ []]) :=
  ⟨by decide,
   toggle_all_marks_toggle
     [Entry.node ⟨"p", false, false, 100, 100, 0, 1, 2, 1, false⟩ []]
     (by decide)⟩
